import Mathlib

/-!
Verification of the layout-preserving correction engine of
`app/pipeline/exporter.py` (functions `_wrap_text`, `_estimate_textbox_height`,
`_whiteout_and_render`, `_merge_blocks`, `_normalize_ws`,
`_replace_affected_blocks`, `_export_via_form_fields`,
`_export_formatted_native`, `_export_formatted_scanned`,
`_add_searchable_text_layer`, `export_formatted_pdf`).

Strings are modelled as `List Char`, geometric coordinates and font sizes as
exact rationals (`ℚ`; the Python source uses floats, whose arithmetic on the
small decimal constants involved coincides with exact rational arithmetic for
the properties proved here).  The external collaborators (PyMuPDF drawing and
Tesseract OCR) are modelled as data: a page carries the OCR blocks and OCR
words the engine would obtain for it, the text-width oracle
`fitz.get_text_length` is an arbitrary function parameter, and the drawing
calls (`draw_rect`/`insert_textbox`/`insert_text`) are reified as operation
records that the embedded functions return instead of performing.
-/

/-- A PyMuPDF `fitz.Rect`: left/top/right/bottom in PDF points. -/
structure Rect where
  x0 : ℚ
  y0 : ℚ
  x1 : ℚ
  y1 : ℚ
deriving DecidableEq, Repr, Inhabited

/-- `fitz.Rect.width`. -/
def Rect.width (r : Rect) : ℚ := r.x1 - r.x0

/-- `fitz.Rect.height`. -/
def Rect.height (r : Rect) : ℚ := r.y1 - r.y0

/-- An OCR block as produced by `_ocr_page_blocks` (exporter.py lines 570-619):
`{block_num, text, rect, word_rects, avg_word_height}`. -/
structure Block where
  block_num : ℕ
  text : List Char
  rect : Rect
  word_rects : List Rect
  avg_word_height : ℚ
deriving DecidableEq, Repr, Inhabited

/-- A PDF form-field widget (`page.widgets()` elements): name and value. -/
structure Widget where
  field_name : List Char
  field_value : List Char
deriving DecidableEq, Repr, Inhabited

/-- One word of raw OCR output (`pytesseract.image_to_data` row), pixel
coordinates at the capture DPI. -/
structure OcrWord where
  text : List Char
  left : ℚ
  top : ℚ
  width : ℚ
  height : ℚ
deriving DecidableEq, Repr, Inhabited

/-- A document page together with the responses of the external collaborators
for it: its form widgets, the OCR blocks `_ocr_page_blocks` would return, the
extractable text `page.get_text()` would return, and the word-level OCR data
`_add_searchable_text_layer`'s Tesseract call would return. -/
structure PageData where
  widgets : List Widget
  blocks : List Block
  extract_text : List Char
  ocr_words : List OcrWord
deriving DecidableEq, Repr, Inhabited

/-- The `page.draw_rect` + `page.insert_textbox` pair issued by
`_whiteout_and_render`: the whited-out rectangle, the render rectangle, and
the textbox arguments (text, fontsize, fontname, RGB color). -/
structure RenderOp where
  clean_rect : Rect
  render_rect : Rect
  text : List Char
  fontsize : ℚ
  fontname : List Char
  color : ℚ × ℚ × ℚ
deriving DecidableEq, Repr, Inhabited

/-- A `page.insert_text` call issued by `_add_searchable_text_layer`
(position, word, fontsize, `render_mode=3` flag). -/
structure InsertTextOp where
  x : ℚ
  y : ℚ
  text : List Char
  fontsize : ℚ
  invisible : Bool
deriving DecidableEq, Repr, Inhabited

/-- One element of `bias_changes`: only the two phrase fields are read by the
export path (`c["original_phrase"]`, `c["replacement_phrase"]`). -/
structure BiasChange where
  original_phrase : List Char
  replacement_phrase : List Char
deriving DecidableEq, Repr, Inhabited

/-- The observable outcome of `export_formatted_pdf`: the saved document and
the drawing operations performed on it. -/
structure ExportResult where
  doc : List PageData
  render_ops : List (ℕ × List ℕ × RenderOp)
  search_ops : List (ℕ × InsertTextOp)
deriving DecidableEq, Repr, Inhabited

/-- The external text-width oracle `fitz.get_text_length (text, fontname,
fontsize)`. -/
abbrev TextMeasure := List Char → List Char → ℚ → ℚ

/-- Python `str.strip()`: remove leading and trailing whitespace. -/
def pyStrip (s : List Char) : List Char :=
  ((s.dropWhile Char.isWhitespace).reverse.dropWhile Char.isWhitespace).reverse

/-- Accumulator worker for `splitWords` (`cur` holds the current word,
reversed). -/
def splitWordsAux : List Char → List Char → List (List Char)
  | cur, [] => if cur = [] then [] else [cur.reverse]
  | cur, c :: cs =>
      if c.isWhitespace then
        if cur = [] then splitWordsAux [] cs else cur.reverse :: splitWordsAux [] cs
      else splitWordsAux (c :: cur) cs

/-- Python `str.split()` (no argument): split on runs of whitespace,
discarding empty pieces. -/
def splitWords (s : List Char) : List (List Char) :=
  splitWordsAux [] s

/-- Python `" ".join(ws)`. -/
def joinSpace : List (List Char) → List Char
  | [] => []
  | [w] => w
  | w :: ws => w ++ ' ' :: joinSpace ws

/-- Python `str.lower()` (ASCII-adequate model). -/
def lowerChars (s : List Char) : List Char := s.map Char.toLower

/-- `_normalize_ws` (exporter.py lines 622-624): collapse all whitespace to
single spaces: `" ".join(text.split())`. -/
def normalize_ws (s : List Char) : List Char := joinSpace (splitWords s)

/-- The normalised word set `set(_normalize_ws(t).lower().split())` used for
block/paragraph matching (exporter.py lines 829-831 and 837). -/
def wordSet (s : List Char) : Finset (List Char) :=
  (splitWords (lowerChars (normalize_ws s))).toFinset

/-- A well-formed word as produced by Python `str.split()`: non-empty and
whitespace-free. -/
def goodWord (w : List Char) : Prop := w ≠ [] ∧ ∀ c ∈ w, ¬ c.isWhitespace

/-- Fuel-indexed worker for `replaceAll`; `fuel` bounds the number of examined
positions (instantiated with `s.length`, which always suffices). -/
def replaceAllGo (p r : List Char) : ℕ → List Char → List Char
  | 0, s => s
  | _ + 1, [] => []
  | fuel + 1, c :: cs =>
      if p.isPrefixOf (c :: cs) then r ++ replaceAllGo p r fuel ((c :: cs).drop p.length)
      else c :: replaceAllGo p r fuel cs

/-- Python `s.replace(p, r)`: replace every occurrence of `p` in `s` by `r`,
scanning left to right, non-overlapping.  For the empty pattern Python
intersperses `r` at every position (`"ab".replace("", "X") = "XaXbX"`). -/
def replaceAll (p r s : List Char) : List Char :=
  if p = [] then r ++ (s.map fun c => c :: r).flatten
  else replaceAllGo p r s.length s

/-- The sequential edit-application loop used identically for paragraphs
(exporter.py lines 816-823) and widget values (lines 901-906): apply each
`(orig, repl)` in order to the progressively modified text, tracking whether
any pair's `orig` occurred (`changed` flag). -/
def apply_changes_tracked (changes : List (List Char × List Char)) (t : List Char) :
    List Char × Bool :=
  changes.foldl
    (fun acc c => if c.1 <:+: acc.1 then (replaceAll c.1 c.2 acc.1, true) else acc)
    (t, false)

/-- The debiased text produced by the sequential edit-application loop. -/
def applyChanges (changes : List (List Char × List Char)) (t : List Char) : List Char :=
  (apply_changes_tracked changes t).1

/-- Python `s.split(sep)` worker (`cur` reversed). -/
def pySplitAux (sep : Char) : List Char → List Char → List (List Char)
  | cur, [] => [cur.reverse]
  | cur, c :: cs =>
      if c = sep then cur.reverse :: pySplitAux sep [] cs
      else pySplitAux sep (c :: cur) cs

/-- Python `s.split(sep)` for a one-character separator (keeps empty pieces;
`"".split(sep) = [""]`). -/
def pySplit (sep : Char) (s : List Char) : List (List Char) :=
  pySplitAux sep [] s

/-- Python `s.split(sep, 1)` worker. -/
def pySplitFirstAux (sep : Char) : List Char → List Char → List (List Char)
  | cur, [] => [cur.reverse]
  | cur, c :: cs =>
      if c = sep then [cur.reverse, cs]
      else pySplitFirstAux sep (c :: cur) cs

/-- Python `s.split(sep, 1)`: at most one split, at the first occurrence. -/
def pySplitFirst (sep : Char) (s : List Char) : List (List Char) :=
  pySplitFirstAux sep [] s

/-- The label test `re.match(r"^[A-Z ]+:$", line)` (exporter.py line 807):
one or more uppercase letters/spaces followed by a colon, spanning the whole
line. -/
def isLabelLine (s : List Char) : Bool :=
  match s.reverse with
  | ':' :: body =>
      body ≠ [] && body.all fun c => ('A' ≤ c && c ≤ 'Z') || c = ' '
  | _ => false

/-- Greedy tail of the separator regex `\n\s*\n` after its first `\n`: consume
the longest all-whitespace run followed by a final `\n` (the greedy `\s*`
backtracks to the last newline inside the maximal whitespace run).  Returns
the remainder of the input after the match, or `none` if no `\n` follows. -/
def reBlankTail (rest : List Char) : Option (List Char) :=
  let w := rest.takeWhile Char.isWhitespace
  match w.reverse.findIdx? (· = '\n') with
  | none => none
  | some j => some (rest.drop (w.length - j))

/-- Fuel-indexed worker for `reSplitBlank` (`acc` holds the current segment,
reversed; fuel bounds the number of consumed characters). -/
def reSplitBlankGo : ℕ → List Char → List Char → List (List Char)
  | 0, acc, s => [acc.reverse ++ s]
  | _ + 1, acc, [] => [acc.reverse]
  | fuel + 1, acc, c :: cs =>
      if c = '\n' then
        match reBlankTail cs with
        | some rest => acc.reverse :: reSplitBlankGo fuel [] rest
        | none => reSplitBlankGo fuel ('\n' :: acc) cs
      else reSplitBlankGo fuel (c :: acc) cs

/-- Python `re.split(r"\n\s*\n", stored)` (exporter.py line 785): split on a
newline, any amount of whitespace, and a newline (leftmost, non-overlapping,
greedy). -/
def reSplitBlank (s : List Char) : List (List Char) :=
  reSplitBlankGo s.length [] s

/-- The short-line accumulator of the single-newline fallback (exporter.py
lines 790-798): greedily merge consecutive lines until the joined text
reaches 80 characters. -/
def lineAccum : List (List Char) → List (List Char) → List (List Char)
  | current, [] => if current = [] then [] else [joinSpace current]
  | current, ln :: rest =>
      let cur' := current ++ [ln]
      if 80 ≤ (joinSpace cur').length then joinSpace cur' :: lineAccum [] rest
      else lineAccum cur' rest

/-- Paragraph segmentation of the stored page text (exporter.py lines
783-798): split on blank lines; if that yields at most one paragraph, fall
back to accumulating stripped non-blank lines to a minimum of 80 characters. -/
def splitParagraphs (stored : List Char) : List (List Char) :=
  let paragraphs := ((reSplitBlank stored).map pyStrip).filter (· ≠ [])
  if paragraphs.length ≤ 1 then
    let lines := ((pySplit '\n' stored).map pyStrip).filter (· ≠ [])
    lineAccum [] lines
  else paragraphs

/-- Leading-label removal (exporter.py lines 804-811): if a paragraph's first
line (before the first newline) is an all-caps `LABEL:` line, keep only the
stripped remainder. -/
def stripLabel (para : List Char) : List Char :=
  match pySplitFirst '\n' para with
  | [l0, rest] => if isLabelLine (pyStrip l0) then pyStrip rest else para
  | _ => para

/-- `_estimate_textbox_height` (exporter.py lines 646-655):
`fontsize × 1.7 + max(0, num_lines − 1) × fontsize × 1.4`, and `0` for a
non-positive line count. -/
def estimate_textbox_height (num_lines : ℕ) (fontsize : ℚ) : ℚ :=
  if num_lines ≤ 0 then 0
  else fontsize * 1.7 + ((max 0 (num_lines - 1) : ℕ) : ℚ) * fontsize * 1.4

/-- The inner word loop of `_wrap_text` (exporter.py lines 732-743):
greedily extend `current` with the next word while the measured width of the
extended line fits `max_width`; otherwise flush `current` (if non-empty) and
start a new line with the word (whose own width is not checked). -/
def wrapLoop (f : TextMeasure) (fontname : List Char) (fontsize max_width : ℚ) :
    List Char → List (List Char) → List (List Char)
  | current, [] => if current = [] then [] else [current]
  | current, word :: ws =>
      let test := current ++ (if current = [] then [] else [' ']) ++ word
      if f test fontname fontsize ≤ max_width then
        wrapLoop f fontname fontsize max_width test ws
      else
        (if current = [] then [] else [current]) ++
          wrapLoop f fontname fontsize max_width word ws

/-- `_wrap_text` (exporter.py lines 722-744): word-wrap `text` into lines
fitting `max_width`; embedded newlines separate paragraphs, blank paragraphs
become empty lines. -/
def wrap_text (f : TextMeasure) (text : List Char) (max_width : ℚ)
    (fontname : List Char) (fontsize : ℚ) : List (List Char) :=
  (pySplit '\n' text).flatMap fun paragraph =>
    if pyStrip paragraph = [] then [[]]
    else wrapLoop f fontname fontsize max_width [] (splitWords paragraph)

/-- Bounding union of a non-empty list of rectangles (`min`/`max` over the
coordinates, as in exporter.py lines 602-607 and 635-640); the empty case is
unreachable in the source (Python `min([])` would raise). -/
def rect_union : List Rect → Rect
  | [] => ⟨0, 0, 0, 0⟩
  | r :: rs =>
      ⟨rs.foldl (fun a b => min a b.x0) r.x0,
       rs.foldl (fun a b => min a b.y0) r.y0,
       rs.foldl (fun a b => max a b.x1) r.x1,
       rs.foldl (fun a b => max a b.y1) r.y1⟩

/-- `_merge_blocks` (exporter.py lines 627-643): union of the word rects,
texts joined with single spaces, average word height over all word rects
(the empty case is unreachable in the source). -/
def merge_blocks (blocks : List Block) : Block :=
  let all_word_rects := blocks.flatMap Block.word_rects
  { block_num := (blocks.headD default).block_num,
    text := joinSpace (blocks.map Block.text),
    rect := rect_union all_word_rects,
    word_rects := all_word_rects,
    avg_word_height := (all_word_rects.map Rect.height).sum / all_word_rects.length }

/-- `_whiteout_and_render` (exporter.py lines 658-713) as a pure function
returning the drawing operation it performs: font size from OCR word height
(floored at 7 pt), one optional 20 % reduction if the wrapped text would
overflow 110 % of the block height, downward-only extension of the render
rect, 2-pt whiteout margin, black text in the caller-supplied font
(default `"helv"`). -/
def whiteout_and_render (f : TextMeasure) (block : Block) (text : List Char)
    (fontname : List Char := "helv".data) : RenderOp :=
  let rect := block.rect
  let margin : ℚ := 2
  let fontsize := max (block.avg_word_height * 0.80) 7
  let wrapped := wrap_text f (pyStrip text) rect.width fontname fontsize
  let needed := estimate_textbox_height wrapped.length fontsize
  let fs_needed :=
    if needed > rect.height * 1.1 ∧ fontsize > 7 then
      let test_fs := max (fontsize * 0.80) 7
      let test_wrap := wrap_text f (pyStrip text) rect.width fontname test_fs
      let test_needed := estimate_textbox_height test_wrap.length test_fs
      if test_needed ≤ rect.height * 1.1 then (test_fs, test_needed)
      else (fontsize, needed)
    else (fontsize, needed)
  let render_rect : Rect :=
    ⟨rect.x0, rect.y0, rect.x1, max rect.y1 (rect.y0 + fs_needed.2 + 4)⟩
  let clean : Rect :=
    ⟨render_rect.x0 - margin, render_rect.y0 - margin,
     render_rect.x1 + margin, render_rect.y1 + margin⟩
  { clean_rect := clean, render_rect := render_rect, text := pyStrip text,
    fontsize := fs_needed.1, fontname := fontname, color := (0, 0, 0) }

/-- The word-overlap matching pass (exporter.py lines 845-852): indices of
the not-yet-claimed, non-empty blocks whose normalised word set overlaps the
paragraph's by at least the 0.4 fraction and by at least 5 words. -/
def overlapMatches (claimed : Finset ℕ) (bws : List (Finset (List Char)))
    (pw : Finset (List Char)) : List ℕ :=
  ((bws.enum.filter fun bs =>
      decide (bs.1 ∉ claimed ∧ bs.2 ≠ ∅ ∧
        (0.4 : ℚ) ≤ ((bs.2 ∩ pw).card : ℚ) / (bs.2.card : ℚ) ∧
        5 ≤ (bs.2 ∩ pw).card)).map Prod.fst)

/-- The containment fallback (exporter.py lines 854-863): indices of the
not-yet-claimed blocks whose normalised OCR text contains some edit pair's
normalised original phrase. -/
def containmentMatches (claimed : Finset ℕ) (blocks : List Block)
    (changes : List (List Char × List Char)) : List ℕ :=
  ((blocks.enum.filter fun bb =>
      decide (bb.1 ∉ claimed) &&
        changes.any fun c => decide (normalize_ws c.1 <:+: normalize_ws bb.2.text)).map
    Prod.fst)

/-- The per-paragraph matching/rendering loop of `_replace_affected_blocks`
(exporter.py lines 833-885): for each affected `(para, debiased)` pair in
order, match blocks by word overlap (falling back to phrase containment),
merge multiple matches, render, and mark the matched indices as claimed.
Returns, per rendered paragraph, the matched block indices and the drawing
operation. -/
def processAffected (f : TextMeasure) (changes : List (List Char × List Char))
    (blocks : List Block) (bws : List (Finset (List Char))) :
    Finset ℕ → List (List Char × List Char) → List (List ℕ × RenderOp)
  | _, [] => []
  | claimed, (para, debiased_para) :: rest =>
      let pw := wordSet para
      if pw = ∅ then processAffected f changes blocks bws claimed rest
      else
        let mo := overlapMatches claimed bws pw
        let matching_bis := if mo = [] then containmentMatches claimed blocks changes else mo
        if matching_bis = [] then processAffected f changes blocks bws claimed rest
        else
          let matched_blocks := matching_bis.filterMap fun bi => blocks[bi]?
          let merged :=
            if 1 < matched_blocks.length then merge_blocks matched_blocks
            else matched_blocks.headD default
          (matching_bis, whiteout_and_render f merged debiased_para) ::
            processAffected f changes blocks bws (claimed ∪ matching_bis.toFinset) rest

/-- The per-page body of `_replace_affected_blocks` (exporter.py lines
766-885) for a page with non-empty stored text: quick phrase check, OCR
block lookup, paragraph segmentation, label stripping, edit application,
then the matching/rendering loop. -/
def pageReplaceOps (f : TextMeasure) (changes : List (List Char × List Char))
    (page : PageData) (stored : List Char) : List (List ℕ × RenderOp) :=
  if ¬ changes.any (fun c => decide (c.1 <:+: stored)) then []
  else if page.blocks = [] then []
  else
    let paragraphs := (splitParagraphs stored).map stripLabel
    let affected := paragraphs.filterMap fun para =>
      let d := apply_changes_tracked changes para
      if d.2 then some (para, d.1) else none
    let bws := page.blocks.map fun b => wordSet b.text
    processAffected f changes page.blocks bws ∅ affected

/-- `page_texts[page_idx] if page_texts and page_idx < len(page_texts) else
None` (exporter.py lines 767-771; note an empty `page_texts` list is falsy). -/
def getStored (pts : Option (List (List Char))) (i : ℕ) : Option (List Char) :=
  match pts with
  | none => none
  | some l => if l = [] then none else l[i]?

/-- `_replace_affected_blocks` (exporter.py lines 747-885) as a pure function
returning, per rendering, the page index, matched block indices, and the
drawing operation. -/
def replace_affected_blocks (f : TextMeasure) (changes : List (List Char × List Char))
    (page_texts : Option (List (List Char))) (doc : List PageData) :
    List (ℕ × List ℕ × RenderOp) :=
  doc.enum.flatMap fun ip =>
    match getStored page_texts ip.1 with
    | none => []
    | some stored =>
        if stored = [] then []
        else (pageReplaceOps f changes ip.2 stored).map fun e => (ip.1, e)

/-- `_export_via_form_fields` (exporter.py lines 888-912): apply the edits to
every non-empty widget value; returns the `updated` flag and the patched
document. -/
def export_via_form_fields (changes : List (List Char × List Char))
    (doc : List PageData) : Bool × List PageData :=
  let pages := doc.map fun page =>
    let ws := page.widgets.map fun w =>
      if w.field_value = [] then (w, false)
      else
        let md := apply_changes_tracked changes w.field_value
        if md.2 then ({ w with field_value := md.1 }, true) else (w, false)
    ({ page with widgets := ws.map Prod.fst }, ws.any Prod.snd)
  (pages.any Prod.snd, pages.map Prod.fst)

/-- `_export_formatted_native` (exporter.py lines 915-934) after the change
list has been built: try form fields first; only if no field was updated run
block-level replacement. -/
def export_formatted_native (f : TextMeasure) (changes : List (List Char × List Char))
    (page_texts : Option (List (List Char))) (doc : List PageData) :
    List PageData × List (ℕ × List ℕ × RenderOp) :=
  let r := export_via_form_fields changes doc
  if r.1 then (r.2, [])
  else (r.2, replace_affected_blocks f changes page_texts r.2)

/-- `_export_formatted_scanned` (exporter.py lines 937-953) after the change
list has been built: block-level replacement only. -/
def export_formatted_scanned (f : TextMeasure) (changes : List (List Char × List Char))
    (page_texts : Option (List (List Char))) (doc : List PageData) :
    List PageData × List (ℕ × List ℕ × RenderOp) :=
  (doc, replace_affected_blocks f changes page_texts doc)

/-- The fixed capture DPI (exporter.py lines 971-972): `scale = 72 / 300`. -/
def searchScale : ℚ := 72 / 300

/-- The invisible-text operation for one OCR word (exporter.py lines
983-998): skip blank words; position `(left × scale, top × scale + fontsize
× 0.88)`, `fontsize = max(height × scale × 0.85, 1)`, `render_mode=3`. -/
def wordSearchOp (w : OcrWord) : Option InsertTextOp :=
  let word := pyStrip w.text
  if word = [] then none
  else
    let x := w.left * searchScale
    let y := w.top * searchScale
    let h := w.height * searchScale
    let fontsize := max (h * 0.85) 1
    some { x := x, y := y + fontsize * 0.88, text := word, fontsize := fontsize,
           invisible := true }

/-- All invisible-text operations for one page's OCR words. -/
def page_search_ops (page : PageData) : List InsertTextOp :=
  page.ocr_words.filterMap wordSearchOp

/-- The contribution of page `i` to the searchable layer (exporter.py lines
974-1000): skipped entirely when the stripped extractable text exceeds 50
characters. -/
def page_layer_contribution (i : ℕ) (page : PageData) : List (ℕ × InsertTextOp) :=
  if 50 < (pyStrip page.extract_text).length then []
  else (page_search_ops page).map fun op => (i, op)

/-- `_add_searchable_text_layer` (exporter.py lines 956-1000) as a pure
function returning the `insert_text` operations it performs. -/
def add_searchable_text_layer (doc : List PageData) : List (ℕ × InsertTextOp) :=
  doc.enum.flatMap fun ip => page_layer_contribution ip.1 ip.2

/-- Modelled from the spec: `unmask_phrase` is imported from
`app.pipeline.unmasker` but absent from the available source (only
`unmask_text` is present there).  Per the spec (§6: placeholder substitution
performed by the masking collaborator is reversed by substituting tokens
back) and by analogy with `unmask_text`'s loop, each mapping entry's token is
replaced by its original value in the phrase. -/
def unmask_phrase (phrase : List Char) (entity_mapping : List (List Char × List Char)) :
    List Char :=
  entity_mapping.foldl (fun t e => replaceAll e.1 e.2 t) phrase

/-- `export_formatted_pdf` (exporter.py lines 1003-1044) as a pure function:
empty change list saves the document as-is; otherwise unmask the phrases,
run the scanned or native path, and add the searchable layer. -/
def export_formatted_pdf (f : TextMeasure) (bias_changes : List BiasChange)
    (entity_mapping : List (List Char × List Char)) (is_scanned : Bool)
    (page_texts : Option (List (List Char))) (doc : List PageData) : ExportResult :=
  if bias_changes = [] then { doc := doc, render_ops := [], search_ops := [] }
  else
    let changes := bias_changes.map fun c =>
      (unmask_phrase c.original_phrase entity_mapping,
       unmask_phrase c.replacement_phrase entity_mapping)
    let r :=
      if is_scanned then export_formatted_scanned f changes page_texts doc
      else export_formatted_native f changes page_texts doc
    { doc := r.1, render_ops := r.2, search_ops := add_searchable_text_layer r.1 }

/-- A degenerate text-width oracle (every string measures 0): used to
instantiate the engine on concrete inputs where wrapping is irrelevant. -/
def fZero : TextMeasure := fun _ _ _ => 0

/-- A text-width oracle measuring one point per character: used to exercise
the word-wrapper on concrete inputs. -/
def fLen : TextMeasure := fun s _ _ => (s.length : ℚ)

/-- Concrete OCR block reading `"aaa"`. -/
def blockA : Block :=
  { block_num := 0, text := "aaa".data, rect := ⟨0, 0, 100, 10⟩,
    word_rects := [⟨0, 0, 100, 10⟩], avg_word_height := 10 }

/-- Concrete page whose only OCR block is `blockA`. -/
def pageA : PageData :=
  { widgets := [], blocks := [blockA], extract_text := [], ocr_words := [] }

/-- Concrete form widget valued `"a"`. -/
def widgetB : Widget := ⟨"f1".data, "a".data⟩

/-- Concrete page whose only content is the form widget `widgetB`. -/
def pageB : PageData :=
  { widgets := [widgetB], blocks := [], extract_text := [], ocr_words := [] }

/-- Concrete OCR block reading `"The suspect fled the scene."`. -/
def blockC : Block :=
  { block_num := 0, text := "The suspect fled the scene.".data,
    rect := ⟨0, 0, 200, 12⟩, word_rects := [⟨0, 0, 200, 12⟩],
    avg_word_height := 10 }

/-- Concrete page whose only OCR block is `blockC`. -/
def pageC : PageData :=
  { widgets := [], blocks := [blockC], extract_text := [], ocr_words := [] }

/-- Concrete page with 60 characters of extractable text and one OCR word. -/
def pageD : PageData :=
  { widgets := [], blocks := [], extract_text := List.replicate 60 'x',
    ocr_words := [⟨"Hi".data, 100, 200, 50, 25⟩] }

/-- Concrete page with 5 characters of extractable text and one OCR word. -/
def pageE : PageData :=
  { widgets := [], blocks := [], extract_text := "short".data,
    ocr_words := [⟨"Hi".data, 100, 200, 50, 25⟩] }

/-- A text run on a page, as the spec's Style Inference component (§4.2)
reads it: bounding rect, font name, size, RGB color. -/
structure TextRun where
  rect : Rect
  fontname : List Char
  size : ℚ
  color : ℚ × ℚ × ℚ
deriving DecidableEq, Repr, Inhabited

/-- Modelled from the spec's words (§4.2 Style Inference), for comparison
against the code: score of a run against the target rectangle,
`2 × |Δy of vertical centers| + |Δx of left edges|`. -/
def spec_run_score (target : Rect) (run : TextRun) : ℚ :=
  2 * |(run.rect.y0 + run.rect.y1) / 2 - (target.y0 + target.y1) / 2| +
    |run.rect.x0 - target.x0|

/-- Modelled from the spec's words (§4.2 Style Inference), for comparison
against the code: pick the minimum-score run and return its font name, size
and color; default sans ("helv") / 11 pt / black when the page has no runs. -/
def spec_infer_style (runs : List TextRun) (target : Rect) :
    List Char × ℚ × (ℚ × ℚ × ℚ) :=
  match runs with
  | [] => ("helv".data, 11, (0, 0, 0))
  | r :: rs =>
      let best := rs.foldl
        (fun b c => if spec_run_score target c < spec_run_score target b then c else b) r
      (best.fontname, best.size, best.color)

/-- Concrete red text run (for comparing the code's rendering style with the
spec's style-inference description). -/
def runRed : TextRun :=
  { rect := ⟨0, 0, 50, 10⟩, fontname := "tiro".data, size := 12,
    color := (1, 0, 0) }

/-- Concrete stored page text matching `blockC`. -/
def sFled : List Char := "The suspect fled the scene.".data

/-- `sFled` after the edit pair `("fled", "left")`. -/
def sLeft : List Char := "The suspect left the scene.".data

/-- The concrete edit-pair list `[("fled", "left")]`. -/
def chFled : List (List Char × List Char) := [("fled".data, "left".data)]

/-- Claim C5: for every rendered region the initial font size is
`max(avg_word_height × 0.80, 7)` and the final font size drawn is within
`[7, initial]`; moreover at most one 20 % reduction (floored at 7) is ever
applied, so the final size is either the initial size or
`max(initial × 0.80, 7)`. -/
theorem c5_final_fontsize_within_bounds (f : TextMeasure) (block : Block)
    (text fn : List Char) :
    7 ≤ (whiteout_and_render f block text fn).fontsize ∧
      (whiteout_and_render f block text fn).fontsize ≤
        max (block.avg_word_height * 0.80) 7 ∧
      ((whiteout_and_render f block text fn).fontsize =
          max (block.avg_word_height * 0.80) 7 ∨
        (whiteout_and_render f block text fn).fontsize =
          max (max (block.avg_word_height * 0.80) 7 * 0.80) 7) := by
  dsimp only [whiteout_and_render]
  split_ifs with h1 h2
  · refine ⟨le_max_right _ _, ?_, Or.inr rfl⟩
    have h7 : (7 : ℚ) ≤ max (block.avg_word_height * 0.80) 7 := le_max_right _ _
    exact max_le (by nlinarith) h7
  · exact ⟨le_max_right _ _, le_refl _, Or.inl rfl⟩
  · exact ⟨le_max_right _ _, le_refl _, Or.inl rfl⟩

/-- Claim C6: the render rectangle keeps the matched block rect's `x0`, `x1`
and `y0`, and its bottom edge is
`max(original.y1, original.y0 + estimatedHeight + 4)` where the estimated
height is computed by `_estimate_textbox_height` from the wrapped line count
at the final font size. -/
theorem c6_render_rect_grows_only_downward (f : TextMeasure) (block : Block)
    (text fn : List Char) :
    (whiteout_and_render f block text fn).render_rect =
      { x0 := block.rect.x0, y0 := block.rect.y0, x1 := block.rect.x1,
        y1 := max block.rect.y1 (block.rect.y0 +
          estimate_textbox_height
            (wrap_text f (pyStrip text) block.rect.width fn
              (whiteout_and_render f block text fn).fontsize).length
            (whiteout_and_render f block text fn).fontsize + 4) } := by
  dsimp only [whiteout_and_render]
  split_ifs <;> rfl

/-- Claim C9: running the formatted export with an empty edit-pair list
returns the document unchanged and performs no drawing operation at all. -/
theorem c9_empty_changes_noop (f : TextMeasure)
    (entity_mapping : List (List Char × List Char)) (is_scanned : Bool)
    (page_texts : Option (List (List Char))) (doc : List PageData) :
    export_formatted_pdf f [] entity_mapping is_scanned page_texts doc =
      { doc := doc, render_ops := [], search_ops := [] } := by
  simp [export_formatted_pdf]

/-- Claim C4 (amended): the renderer performs no style inference from the
page's text runs; it always draws with the caller-supplied font name (which
the engine's call sites leave at the default sans `"helv"`) and black text,
regardless of any text run on the page. -/
theorem c4_renderer_style_is_fixed (f : TextMeasure) (block : Block)
    (text : List Char) :
    (∀ fn, (whiteout_and_render f block text fn).fontname = fn ∧
        (whiteout_and_render f block text fn).color = (0, 0, 0)) ∧
      (whiteout_and_render f block text).fontname = "helv".data := by
  exact ⟨fun fn => ⟨rfl, rfl⟩, rfl⟩

/-- Claim C4, counterexample: on a page carrying a single red text run, the
spec's style-inference rule picks that run's red color, but the code's
renderer draws black: the rendered style does not come from the page's text
runs. -/
theorem c4_counterexample :
    (spec_infer_style [runRed] blockA.rect).2.2 = (1, 0, 0) ∧
      (whiteout_and_render fZero blockA "hello".data).color = (0, 0, 0) ∧
      (whiteout_and_render fZero blockA "hello".data).color ≠
        (spec_infer_style [runRed] blockA.rect).2.2 := by
  refine ⟨rfl, rfl, ?_⟩
  have h1 : (whiteout_and_render fZero blockA "hello".data).color = (0, 0, 0) := rfl
  rw [h1]
  intro h
  have h2 : (0 : ℚ) = 1 := congrArg Prod.fst h
  norm_num at h2

/-- Claim C2, counterexample: with the single edit pair `("a", "a")` and one
widget valued `"a"`, `_export_via_form_fields` returns `true` although no
widget value anywhere in the document changed (the output document equals
the input document). -/
theorem c2_counterexample :
    (export_via_form_fields [("a".data, "a".data)] [pageB]).1 = true ∧
      (export_via_form_fields [("a".data, "a".data)] [pageB]).2 = [pageB] := by
  exact ⟨by decide, by decide⟩

/-- Membership in the word-overlap matching pass, characterised: a block
index is returned iff the block is unclaimed, its word set is non-empty, and
both the 0.4 overlap fraction and the 5 matching-word floor are met. -/
theorem mem_overlapMatches {claimed : Finset ℕ} {bws : List (Finset (List Char))}
    {pw : Finset (List Char)} {bi : ℕ} :
    bi ∈ overlapMatches claimed bws pw ↔
      ∃ s, bws[bi]? = some s ∧ bi ∉ claimed ∧ s ≠ ∅ ∧
        (0.4 : ℚ) ≤ ((s ∩ pw).card : ℚ) / (s.card : ℚ) ∧ 5 ≤ (s ∩ pw).card := by
  unfold overlapMatches
  constructor
  · intro h
    obtain ⟨⟨i, s⟩, hmem, rfl⟩ := List.mem_map.mp h
    obtain ⟨henum, hcond⟩ := List.mem_filter.mp hmem
    have hc := of_decide_eq_true hcond
    exact ⟨s, List.mk_mem_enum_iff_getElem?.mp henum, hc.1, hc.2.1, hc.2.2.1, hc.2.2.2⟩
  · rintro ⟨s, hget, h1, h2, h3, h4⟩
    exact List.mem_map.mpr ⟨(bi, s),
      List.mem_filter.mpr ⟨List.mk_mem_enum_iff_getElem?.mpr hget,
        decide_eq_true ⟨h1, h2, h3, h4⟩⟩, rfl⟩

/-- Membership in the containment fallback, characterised: a block index is
returned iff the block is unclaimed and its normalised OCR text contains
some edit pair's normalised original phrase. -/
theorem mem_containmentMatches {claimed : Finset ℕ} {blocks : List Block}
    {changes : List (List Char × List Char)} {bi : ℕ} :
    bi ∈ containmentMatches claimed blocks changes ↔
      ∃ b, blocks[bi]? = some b ∧ bi ∉ claimed ∧
        ∃ c ∈ changes, normalize_ws c.1 <:+: normalize_ws b.text := by
  unfold containmentMatches
  constructor
  · intro h
    obtain ⟨⟨i, b⟩, hmem, rfl⟩ := List.mem_map.mp h
    obtain ⟨henum, hcond⟩ := List.mem_filter.mp hmem
    rw [Bool.and_eq_true] at hcond
    obtain ⟨c, hc, hcc⟩ := List.any_eq_true.mp hcond.2
    exact ⟨b, List.mk_mem_enum_iff_getElem?.mp henum, of_decide_eq_true hcond.1,
      c, hc, of_decide_eq_true hcc⟩
  · rintro ⟨b, hget, h1, c, hc, hcc⟩
    refine List.mem_map.mpr ⟨(bi, b),
      List.mem_filter.mpr ⟨List.mk_mem_enum_iff_getElem?.mpr hget, ?_⟩, rfl⟩
    rw [Bool.and_eq_true]
    exact ⟨decide_eq_true h1, List.any_eq_true.mpr ⟨c, hc, decide_eq_true hcc⟩⟩

/-- Every block index produced by either matching phase is unclaimed. -/
theorem matching_avoids_claimed {claimed : Finset ℕ}
    {bws : List (Finset (List Char))} {pw : Finset (List Char)} {blocks : List Block}
    {changes : List (List Char × List Char)} {mo : List ℕ} {bi : ℕ}
    (h : bi ∈ if mo = [] then containmentMatches claimed blocks changes
      else mo) (hmo : mo = overlapMatches claimed bws pw) : bi ∉ claimed := by
  split_ifs at h with he
  · obtain ⟨b, _, h1, _⟩ := mem_containmentMatches.mp h
    exact h1
  · rw [hmo] at h
    obtain ⟨s, _, h1, _⟩ := mem_overlapMatches.mp h
    exact h1

/-- No entry of the per-paragraph matching/rendering loop uses a block index
that was already claimed when the loop started. -/
theorem processAffected_not_claimed (f : TextMeasure)
    (changes : List (List Char × List Char)) (blocks : List Block)
    (bws : List (Finset (List Char))) :
    ∀ (l : List (List Char × List Char)) (claimed : Finset ℕ),
      ∀ e ∈ processAffected f changes blocks bws claimed l, ∀ bi ∈ e.1, bi ∉ claimed := by
  intro l
  induction l with
  | nil => intro claimed e he; simp [processAffected] at he
  | cons hd rest ih =>
      intro claimed e he bi hbi
      obtain ⟨para, deb⟩ := hd
      simp only [processAffected] at he
      by_cases hpw : wordSet para = ∅
      · rw [if_pos hpw] at he; exact ih claimed e he bi hbi
      · rw [if_neg hpw] at he
        by_cases hmb : (if overlapMatches claimed bws (wordSet para) = [] then
            containmentMatches claimed blocks changes
          else overlapMatches claimed bws (wordSet para)) = []
        · rw [if_pos hmb] at he; exact ih claimed e he bi hbi
        · rw [if_neg hmb] at he
          rcases List.mem_cons.mp he with heq | htail
          · rw [heq] at hbi
            have hbi' : bi ∈ (if overlapMatches claimed bws (wordSet para) = [] then
                containmentMatches claimed blocks changes
              else overlapMatches claimed bws (wordSet para)) := hbi
            exact matching_avoids_claimed hbi' rfl
          · intro hcl
            exact ih _ e htail bi hbi (Finset.mem_union_left _ hcl)

/-- The per-paragraph matching/rendering loop assigns pairwise disjoint block
index sets: a block matched by an earlier paragraph is never matched again
by a later one. -/
theorem processAffected_pairwise (f : TextMeasure)
    (changes : List (List Char × List Char)) (blocks : List Block)
    (bws : List (Finset (List Char))) :
    ∀ (l : List (List Char × List Char)) (claimed : Finset ℕ),
      List.Pairwise (fun a b => ∀ bi ∈ a.1, bi ∉ b.1)
        (processAffected f changes blocks bws claimed l) := by
  intro l
  induction l with
  | nil => intro claimed; simp [processAffected]
  | cons hd rest ih =>
      intro claimed
      obtain ⟨para, deb⟩ := hd
      simp only [processAffected]
      by_cases hpw : wordSet para = ∅
      · rw [if_pos hpw]; exact ih claimed
      · rw [if_neg hpw]
        by_cases hmb : (if overlapMatches claimed bws (wordSet para) = [] then
            containmentMatches claimed blocks changes
          else overlapMatches claimed bws (wordSet para)) = []
        · rw [if_pos hmb]; exact ih claimed
        · rw [if_neg hmb]
          refine List.pairwise_cons.mpr ⟨?_, ih _⟩
          intro b hb bi hbi hbib
          have hnc := processAffected_not_claimed f changes blocks bws rest _ b hb bi hbib
          have hbi' : bi ∈ (if overlapMatches claimed bws (wordSet para) = [] then
              containmentMatches claimed blocks changes
            else overlapMatches claimed bws (wordSet para)) := hbi
          exact hnc (Finset.mem_union_right _ (List.mem_toFinset.mpr hbi'))

/-- Claim C3: in word-overlap matching a not-yet-claimed block matches a
changed paragraph iff both `overlap = |block∩para| / |block| ≥ 0.4` and
`|block∩para| ≥ 5` hold; in particular a block sharing exactly 3 normalised
words with the paragraph never matches by overlap, regardless of its
fractional overlap. -/
theorem c3_dual_threshold (claimed : Finset ℕ) (bws : List (Finset (List Char)))
    (pw : Finset (List Char)) :
    (∀ bi, bi ∈ overlapMatches claimed bws pw ↔
      ∃ s, bws[bi]? = some s ∧ bi ∉ claimed ∧ s ≠ ∅ ∧
        (0.4 : ℚ) ≤ ((s ∩ pw).card : ℚ) / (s.card : ℚ) ∧ 5 ≤ (s ∩ pw).card) ∧
    (∀ bi s, bws[bi]? = some s → (s ∩ pw).card = 3 →
      bi ∉ overlapMatches claimed bws pw) := by
  refine ⟨fun bi => mem_overlapMatches, fun bi s hget hcard hmem => ?_⟩
  obtain ⟨s', hget', _, _, _, h5⟩ := mem_overlapMatches.mp hmem
  rw [hget] at hget'
  obtain rfl := Option.some_inj.mp hget'
  rw [hcard] at h5
  norm_num at h5

/-- Claim C3, witness: a block sharing exactly 3 normalised words with a
paragraph (here with fractional overlap 1.0) is not matched by overlap. -/
theorem c3_witness :
    (wordSet "a b c".data ∩ wordSet "a b c d e f g h".data).card = 3 ∧
      0 ∉ overlapMatches ∅ [wordSet "a b c".data]
        (wordSet "a b c d e f g h".data) :=
  ⟨by decide,
    (c3_dual_threshold ∅ [wordSet "a b c".data]
        (wordSet "a b c d e f g h".data)).2 0 (wordSet "a b c".data) rfl
      (by decide)⟩

/-- Claim C7: within one page's matching pass, paragraphs are processed in
order and every block matched to a paragraph is never matched again (by
overlap or by the containment fallback) to a later paragraph: no entry uses
an initially claimed index and the assigned index sets are pairwise
disjoint. -/
theorem c7_first_claim_wins (f : TextMeasure)
    (changes : List (List Char × List Char)) (blocks : List Block)
    (bws : List (Finset (List Char))) (claimed : Finset ℕ)
    (l : List (List Char × List Char)) :
    (∀ e ∈ processAffected f changes blocks bws claimed l,
        ∀ bi ∈ e.1, bi ∉ claimed) ∧
      List.Pairwise (fun a b => ∀ bi ∈ a.1, bi ∉ b.1)
        (processAffected f changes blocks bws claimed l) :=
  ⟨processAffected_not_claimed f changes blocks bws l claimed,
    processAffected_pairwise f changes blocks bws l claimed⟩

/-- `r` becomes an infix of the replacement result whenever the (non-empty)
pattern occurs in the scanned text, for any sufficient fuel. -/
theorem replaceAllGo_infix_repl (p r : List Char) (hp : p ≠ []) :
    ∀ (fuel : ℕ) (s : List Char), s.length ≤ fuel → p <:+: s →
      r <:+: replaceAllGo p r fuel s := by
  intro fuel
  induction fuel with
  | zero =>
      intro s hlen hinf
      have hs : s = [] := List.length_eq_zero.mp (Nat.le_zero.mp hlen)
      subst hs
      obtain ⟨u, v, huv⟩ := hinf
      rcases List.append_eq_nil.mp huv with ⟨huv2, -⟩
      rcases List.append_eq_nil.mp huv2 with ⟨-, hpnil⟩
      exact absurd hpnil hp
  | succ fuel ih =>
      intro s hlen hinf
      match s with
      | [] =>
          obtain ⟨u, v, huv⟩ := hinf
          rcases List.append_eq_nil.mp huv with ⟨huv2, -⟩
          rcases List.append_eq_nil.mp huv2 with ⟨-, hpnil⟩
          exact absurd hpnil hp
      | c :: cs =>
          rw [replaceAllGo]
          by_cases hpre : p.isPrefixOf (c :: cs)
          · rw [if_pos hpre]
            exact (List.prefix_append r _).isInfix
          · rw [if_neg hpre]
            have hinf' : p <:+: cs := by
              obtain ⟨u, v, huv⟩ := hinf
              match u, huv with
              | [], huv =>
                  exfalso
                  apply hpre
                  rw [List.isPrefixOf_iff_prefix]
                  exact ⟨v, by simpa using huv⟩
              | u0 :: u', huv =>
                  injection huv with h1 h2
                  exact ⟨u', v, h2⟩
            have hlen' : cs.length ≤ fuel := by
              simpa [Nat.succ_le_succ_iff] using hlen
            obtain ⟨u, v, huv⟩ := ih cs hlen' hinf'
            exact ⟨c :: u, v, by simpa using huv⟩

/-- `s.replace(p, r)` contains `r` whenever `p` occurs in `s`. -/
theorem replaceAll_infix_repl (p r s : List Char) (h : p <:+: s) :
    r <:+: replaceAll p r s := by
  unfold replaceAll
  by_cases hp : p = []
  · rw [if_pos hp]
    exact (List.prefix_append r _).isInfix
  · rw [if_neg hp]
    exact replaceAllGo_infix_repl p r hp s.length s le_rfl h

/-- Applying a single edit pair whose original phrase occurs in the text
yields a text containing the replacement phrase. -/
theorem applyChanges_single_repl (o r para : List Char) (h : o <:+: para) :
    r <:+: applyChanges [(o, r)] para := by
  unfold applyChanges apply_changes_tracked
  simp only [List.foldl_cons, List.foldl_nil]
  rw [if_pos h]
  exact replaceAll_infix_repl o r para h

/-- Every entry rendered by the per-paragraph loop draws the stripped
debiased text of one of the affected paragraphs. -/
theorem processAffected_text (f : TextMeasure)
    (changes : List (List Char × List Char)) (blocks : List Block)
    (bws : List (Finset (List Char))) :
    ∀ (l : List (List Char × List Char)) (claimed : Finset ℕ),
      ∀ e ∈ processAffected f changes blocks bws claimed l,
        ∃ pd ∈ l, e.2.text = pyStrip pd.2 := by
  intro l
  induction l with
  | nil => intro claimed e he; simp [processAffected] at he
  | cons hd rest ih =>
      intro claimed e he
      obtain ⟨para, deb⟩ := hd
      simp only [processAffected] at he
      by_cases hpw : wordSet para = ∅
      · rw [if_pos hpw] at he
        obtain ⟨pd, hpd, ht⟩ := ih claimed e he
        exact ⟨pd, List.mem_cons_of_mem _ hpd, ht⟩
      · rw [if_neg hpw] at he
        by_cases hmb : (if overlapMatches claimed bws (wordSet para) = [] then
            containmentMatches claimed blocks changes
          else overlapMatches claimed bws (wordSet para)) = []
        · rw [if_pos hmb] at he
          obtain ⟨pd, hpd, ht⟩ := ih claimed e he
          exact ⟨pd, List.mem_cons_of_mem _ hpd, ht⟩
        · rw [if_neg hmb] at he
          rcases List.mem_cons.mp he with heq | htail
          · exact ⟨(para, deb), List.mem_cons_self _ _, by rw [heq]; rfl⟩
          · obtain ⟨pd, hpd, ht⟩ := ih _ e htail
            exact ⟨pd, List.mem_cons_of_mem _ hpd, ht⟩

/-- Every region rendered for a page draws the stripped debiased text of one
of the page's label-stripped paragraphs that the edit pairs changed. -/
theorem pageReplaceOps_text (f : TextMeasure)
    (changes : List (List Char × List Char)) (page : PageData) (stored : List Char) :
    ∀ e ∈ pageReplaceOps f changes page stored,
      ∃ para ∈ (splitParagraphs stored).map stripLabel,
        (apply_changes_tracked changes para).2 = true ∧
        e.2.text = pyStrip (applyChanges changes para) := by
  intro e he
  unfold pageReplaceOps at he
  split_ifs at he with h1 h2
  all_goals try exact absurd he (List.not_mem_nil e)
  obtain ⟨⟨para, deb⟩, hpd, htext⟩ :=
    processAffected_text f changes page.blocks _ _ _ e he
  obtain ⟨para0, hpara0, hsome⟩ := List.mem_filterMap.mp hpd
  by_cases hch : (apply_changes_tracked changes para0).2 = true
  · rw [if_pos hch] at hsome
    have hpair := Option.some_inj.mp hsome
    refine ⟨para0, hpara0, hch, ?_⟩
    rw [htext, ← hpair]
    rfl
  · rw [if_neg hch] at hsome
    exact absurd hsome (by simp)

/-- Every region rendered by block-level replacement belongs to a page whose
supplied text is present and non-empty, and draws the stripped debiased text
of one of that supplied text's label-stripped paragraphs that the edit pairs
changed. -/
theorem replace_affected_blocks_text (f : TextMeasure)
    (changes : List (List Char × List Char)) (pts : Option (List (List Char)))
    (doc : List PageData) :
    ∀ e ∈ replace_affected_blocks f changes pts doc,
      ∃ page stored, doc[e.1]? = some page ∧ getStored pts e.1 = some stored ∧
        stored ≠ [] ∧
        ∃ para ∈ (splitParagraphs stored).map stripLabel,
          (apply_changes_tracked changes para).2 = true ∧
          e.2.2.text = pyStrip (applyChanges changes para) := by
  intro e he
  unfold replace_affected_blocks at he
  obtain ⟨ip, hip, he2⟩ := List.mem_flatMap.mp he
  rcases hg : getStored pts ip.1 with - | stored
  · rw [hg] at he2; simp at he2
  · rw [hg] at he2
    dsimp only at he2
    split_ifs at he2 with hs
    · simp at he2
    · obtain ⟨e', he', heq⟩ := List.mem_map.mp he2
      subst heq
      obtain ⟨para, hpara, hch, hp⟩ := pageReplaceOps_text f changes ip.2 stored e' he'
      exact ⟨ip.2, stored, List.mem_enum_iff_getElem?.mp hip, hg, hs,
        para, hpara, hch, hp⟩

/-- Concrete run of the per-paragraph loop on the page-text `"aaa"` with the
edit pair `("aa", "a")`: the overlap pass fails the 5-word floor, the
containment fallback matches block 0, and the debiased text `"aa"` is
rendered. -/
theorem processAffected_aaa_eval :
    processAffected fZero [("aa".data, "a".data)] [blockA] [wordSet "aaa".data] ∅
      [("aaa".data, "aa".data)] =
    [([0], whiteout_and_render fZero blockA "aa".data)] := by
  have hpw : ¬ wordSet "aaa".data = ∅ := by decide
  have hover : overlapMatches ∅ [wordSet "aaa".data] (wordSet "aaa".data) = [] := by
    rw [List.eq_nil_iff_forall_not_mem]
    intro bi hmem
    obtain ⟨s, hget, -, -, -, h5⟩ := mem_overlapMatches.mp hmem
    match bi, hget with
    | 0, hget =>
        have hs : s = wordSet "aaa".data := by simpa using hget.symm
        rw [hs] at h5
        have hcard : (wordSet "aaa".data ∩ wordSet "aaa".data).card = 1 := by decide
        omega
    | bi + 1, hget => simp at hget
  have hcont : containmentMatches ∅ [blockA] [("aa".data, "a".data)] = [0] := by decide
  simp only [processAffected]
  rw [if_neg hpw, hover, if_pos rfl, hcont]
  rfl

/-- Claim C1, counterexample: with the single edit pair `("aa", "a")` on the
page text `"aaa"` (matched to block 0 by the containment fallback), the
rendered region text is `"aa"`, which still contains the original phrase
`"aa"`: block-level replacement does not guarantee the original phrase is
gone from the replaced region. -/
theorem c1_counterexample :
    (replace_affected_blocks fZero [("aa".data, "a".data)] (some ["aaa".data])
        [pageA]).map (fun e => e.2.2.text) = ["aa".data] ∧
      "aa".data <:+: "aa".data := by
  refine ⟨?_, by decide⟩
  have haff : (((splitParagraphs "aaa".data).map stripLabel).filterMap fun para =>
      let d := apply_changes_tracked [("aa".data, "a".data)] para
      if d.2 then some (para, d.1) else none) = [("aaa".data, "aa".data)] := by decide
  have hbws : [blockA].map (fun b => wordSet b.text) = [wordSet "aaa".data] := by decide
  unfold replace_affected_blocks
  simp only [List.enum, List.enumFrom, List.flatMap_cons, List.flatMap_nil,
    List.append_nil, getStored]
  norm_num [pageReplaceOps, pageA, haff, hbws]
  rw [show processAffected fZero [(['a', 'a'], ['a'])] [blockA] [wordSet ['a', 'a', 'a']] ∅
      [(['a', 'a', 'a'], ['a', 'a'])] = [([0], whiteout_and_render fZero blockA ['a', 'a'])]
    from processAffected_aaa_eval]
  decide

/-- Claim C1 (amended): every region rendered by block-level replacement
belongs to a page whose supplied text (`page_texts`) is present and
non-empty, and draws exactly the stripped result of applying all edit pairs
sequentially (leftmost non-overlapping substring replacement, as Python
`str.replace`) to one of that supplied text's label-stripped paragraphs that
the edit pairs changed; and for a single edit pair whose original phrase
occurs in the paragraph, the resulting text contains the replacement phrase
at least once.  (The original claim's "no longer contains original_phrase"
part is false — a replacement can recreate the original phrase, see the
counterexample.) -/
theorem c1_amended :
    (∀ (f : TextMeasure) (changes : List (List Char × List Char))
        (pts : Option (List (List Char))) (doc : List PageData),
        ∀ e ∈ replace_affected_blocks f changes pts doc,
          ∃ page stored, doc[e.1]? = some page ∧ getStored pts e.1 = some stored ∧
            stored ≠ [] ∧
            ∃ para ∈ (splitParagraphs stored).map stripLabel,
              (apply_changes_tracked changes para).2 = true ∧
              e.2.2.text = pyStrip (applyChanges changes para)) ∧
      (∀ o r para, o <:+: para → r <:+: applyChanges [(o, r)] para) :=
  ⟨replace_affected_blocks_text, fun o r para h => applyChanges_single_repl o r para h⟩

/-- Concrete run of the per-paragraph loop on the page text
`"The suspect fled the scene."` with the edit pair `("fled", "left")`. -/
theorem processAffected_fled_eval :
    processAffected fZero chFled [blockC] [wordSet sFled] ∅ [(sFled, sLeft)] =
      [([0], whiteout_and_render fZero blockC sLeft)] := by
  have hpw : ¬ wordSet sFled = ∅ := by decide
  have hover : overlapMatches ∅ [wordSet sFled] (wordSet sFled) = [] := by
    rw [List.eq_nil_iff_forall_not_mem]
    intro bi hmem
    obtain ⟨s, hget, -, -, -, h5⟩ := mem_overlapMatches.mp hmem
    match bi, hget with
    | 0, hget =>
        have hs : s = wordSet sFled := by simpa using hget.symm
        rw [hs] at h5
        have hcard : (wordSet sFled ∩ wordSet sFled).card = 4 := by decide
        omega
    | bi + 1, hget => simp at hget
  have hcont : containmentMatches ∅ [blockC] chFled = [0] := by decide
  simp only [processAffected]
  rw [if_neg hpw, hover, if_pos rfl, hcont]
  rfl

/-- Concrete run of `_replace_affected_blocks` on `pageC`. -/
theorem replace_affected_blocks_fled_eval :
    replace_affected_blocks fZero chFled (some [sFled]) [pageC] =
      [(0, [0], whiteout_and_render fZero blockC sLeft)] := by
  have haff : (((splitParagraphs sFled).map stripLabel).filterMap fun para =>
      let d := apply_changes_tracked chFled para
      if d.2 then some (para, d.1) else none) = [(sFled, sLeft)] := by decide
  have hbws : [blockC].map (fun b => wordSet b.text) = [wordSet sFled] := by decide
  unfold replace_affected_blocks
  simp only [List.enum, List.enumFrom, List.flatMap_cons, List.flatMap_nil,
    List.append_nil, getStored]
  norm_num [pageReplaceOps, pageC, haff, hbws]
  rw [processAffected_fled_eval]
  rw [if_neg (show ¬ sFled = [] by decide)]
  rw [if_pos (show (chFled.any fun c => decide (c.1 <:+: sFled)) = true by decide)]
  rfl

/-- Claim C1 (amended), witness: on the page text
`"The suspect fled the scene."` with the edit pair `("fled", "left")`, the
single rendered region draws the stripped sequential-replacement result of a
changed label-stripped paragraph of that page's supplied text, and the
replacement result contains `"left"`. -/
theorem c1_witness :
    (∃ page stored, ([pageC] : List PageData)[(0 : ℕ)]? = some page ∧
        getStored (some [sFled]) 0 = some stored ∧ stored ≠ [] ∧
        ∃ para ∈ (splitParagraphs stored).map stripLabel,
          (apply_changes_tracked chFled para).2 = true ∧
          (whiteout_and_render fZero blockC sLeft).text =
            pyStrip (applyChanges chFled para)) ∧
      "left".data <:+: applyChanges chFled sFled := by
  constructor
  · exact c1_amended.1 fZero chFled (some [sFled]) [pageC] _
      (by rw [replace_affected_blocks_fled_eval]; exact List.mem_singleton_self _)
  · exact c1_amended.2 "fled".data "left".data sFled (by decide)

/-- Claim C7, witness: in the concrete run on page text `"aaa"`, the block
index 0 matched by the first paragraph was not claimed before the pass. -/
theorem c7_witness : (0 : ℕ) ∉ (∅ : Finset ℕ) :=
  (c7_first_claim_wins fZero [("aa".data, "a".data)] [blockA] [wordSet "aaa".data] ∅
      [("aaa".data, "aa".data)]).1
    ([0], whiteout_and_render fZero blockA "aa".data)
    (by rw [processAffected_aaa_eval]; exact List.mem_singleton_self _) 0
    (List.mem_singleton_self 0)

/-- Claim C2 (amended): `_export_via_form_fields` returns `true` iff some
widget with a non-empty value had some edit pair's original phrase occur in
its progressively modified value (an occurrence need not change the value,
e.g. when the replacement phrase equals the original phrase — see the
counterexample); when it returns `false` the document is unchanged; and
whenever it returns `true` the native export path performs no block-level
page-content replacement anywhere in the document. -/
theorem c2_form_field_shortcircuit (changes : List (List Char × List Char))
    (doc : List PageData) :
    ((export_via_form_fields changes doc).1 = true ↔
      ∃ p ∈ doc, ∃ w ∈ p.widgets, w.field_value ≠ [] ∧
        (apply_changes_tracked changes w.field_value).2 = true) ∧
    ((export_via_form_fields changes doc).1 = false →
      (export_via_form_fields changes doc).2 = doc) ∧
    (∀ (f : TextMeasure) (pts : Option (List (List Char))),
      (export_via_form_fields changes doc).1 = true →
      (export_formatted_native f changes pts doc).2 = []) := by
  refine ⟨?_, ?_, ?_⟩
  · unfold export_via_form_fields
    dsimp only
    rw [List.any_eq_true]
    constructor
    · rintro ⟨x, hx, hflag⟩
      obtain ⟨p, hp, rfl⟩ := List.mem_map.mp hx
      dsimp only at hflag
      rw [List.any_eq_true] at hflag
      obtain ⟨y, hy, hyflag⟩ := hflag
      obtain ⟨w, hw, rfl⟩ := List.mem_map.mp hy
      refine ⟨p, hp, w, hw, ?_⟩
      by_cases hv : w.field_value = []
      · rw [if_pos hv] at hyflag; simp at hyflag
      · rw [if_neg hv] at hyflag
        by_cases hch : (apply_changes_tracked changes w.field_value).2 = true
        · exact ⟨hv, hch⟩
        · rw [if_neg hch] at hyflag; simp at hyflag
    · rintro ⟨p, hp, w, hw, hv, hch⟩
      refine ⟨_, List.mem_map_of_mem _ hp, ?_⟩
      dsimp only
      rw [List.any_eq_true]
      refine ⟨_, List.mem_map_of_mem _ hw, ?_⟩
      rw [if_neg hv, if_pos hch]
  · intro h
    unfold export_via_form_fields at h ⊢
    dsimp only at h ⊢
    rw [List.any_eq_false] at h
    rw [List.map_map]
    conv_rhs => rw [← List.map_id doc]
    refine List.map_congr_left fun p hp => ?_
    have hflag := h _ (List.mem_map_of_mem _ hp)
    dsimp only at hflag
    simp only [Function.comp]
    have hws : (p.widgets.map ((fun w =>
        if w.field_value = [] then (w, false)
        else
          if (apply_changes_tracked changes w.field_value).2 = true then
            ({ w with field_value := (apply_changes_tracked changes w.field_value).1 },
              true)
          else (w, false)) : Widget → Widget × Bool)).map Prod.fst = p.widgets := by
      rw [List.map_map]
      conv_rhs => rw [← List.map_id p.widgets]
      refine List.map_congr_left fun w hw => ?_
      simp only [Function.comp, id]
      by_cases hv : w.field_value = []
      · rw [if_pos hv]
      · rw [if_neg hv]
        by_cases hch : (apply_changes_tracked changes w.field_value).2 = true
        · exfalso
          apply hflag
          rw [List.any_eq_true]
          refine ⟨_, List.mem_map_of_mem _ hw, ?_⟩
          rw [if_neg hv, if_pos hch]
        · rw [if_neg hch]
    simp only [id]
    rw [hws]
  · intro f pts h
    unfold export_formatted_native
    dsimp only
    rw [h]
    simp

/-- Claim C2 (amended), witness: on the concrete document whose only widget
is valued `"a"`, with the edit pair `("a", "a")`, the patcher returned
`true`, so the native path performs no block-level replacement. -/
theorem c2_witness :
    (export_formatted_native fZero [("a".data, "a".data)] none [pageB]).2 = [] :=
  (c2_form_field_shortcircuit [("a".data, "a".data)] [pageB]).2.2 fZero none
    (by decide)

/-- Membership in the searchable layer, characterised per page: an operation
is attributed to page `i` iff that page's stripped extractable text is at
most 50 characters and the operation is one of the page's word stamps. -/
theorem mem_add_searchable (doc : List PageData) (i : ℕ) (page : PageData)
    (op : InsertTextOp) (hget : doc[i]? = some page) :
    (i, op) ∈ add_searchable_text_layer doc ↔
      (pyStrip page.extract_text).length ≤ 50 ∧ op ∈ page_search_ops page := by
  unfold add_searchable_text_layer
  rw [List.mem_flatMap]
  constructor
  · rintro ⟨⟨j, pg⟩, hip, hmem⟩
    unfold page_layer_contribution at hmem
    split_ifs at hmem with hlen
    · simp at hmem
    · obtain ⟨o, ho, heq⟩ := List.mem_map.mp hmem
      have hj : j = i := congrArg Prod.fst heq
      have ho2 : o = op := congrArg Prod.snd heq
      subst hj
      subst ho2
      have hpg := List.mk_mem_enum_iff_getElem?.mp hip
      rw [hget] at hpg
      obtain rfl := Option.some_inj.mp hpg
      exact ⟨not_lt.mp hlen, ho⟩
  · rintro ⟨hlen, hop⟩
    refine ⟨(i, page), List.mk_mem_enum_iff_getElem?.mpr hget, ?_⟩
    unfold page_layer_contribution
    rw [if_neg (not_lt.mpr hlen)]
    exact List.mem_map_of_mem _ hop

/-- Membership among one page's word stamps, characterised: exactly the
non-blank OCR words, each stamped invisibly at
`(left × scale, top × scale + fontsize × 0.88)` with
`fontsize = max(height × scale × 0.85, 1)`. -/
theorem mem_page_search_ops {page : PageData} {op : InsertTextOp} :
    op ∈ page_search_ops page ↔
      ∃ w ∈ page.ocr_words, pyStrip w.text ≠ [] ∧
        op = { x := w.left * searchScale,
               y := w.top * searchScale +
                 max (w.height * searchScale * 0.85) 1 * 0.88,
               text := pyStrip w.text,
               fontsize := max (w.height * searchScale * 0.85) 1,
               invisible := true } := by
  unfold page_search_ops
  rw [List.mem_filterMap]
  constructor
  · rintro ⟨w, hw, hsome⟩
    unfold wordSearchOp at hsome
    dsimp only at hsome
    split_ifs at hsome with hblank
    exact ⟨w, hw, hblank, (Option.some_inj.mp hsome).symm⟩
  · rintro ⟨w, hw, hblank, rfl⟩
    refine ⟨w, hw, ?_⟩
    unfold wordSearchOp
    dsimp only
    rw [if_neg hblank]

/-- Claim C8: the searchable-layer synthesizer stamps invisible text exactly
on pages whose (stripped) extractable text is at most 50 characters — a page
with more than 50 characters contributes nothing — and each non-blank
recognised word is stamped at `(left, top + fontsize × 0.88)` in point space
with `fontsize = max(height × 0.85, 1)` (pixel values scaled by 72/300). -/
theorem c8_searchable_layer (doc : List PageData) (i : ℕ) (page : PageData)
    (op : InsertTextOp) (hget : doc[i]? = some page) :
    (50 < (pyStrip page.extract_text).length →
      page_layer_contribution i page = []) ∧
    ((pyStrip page.extract_text).length ≤ 50 →
      page_layer_contribution i page = (page_search_ops page).map fun o => (i, o)) ∧
    ((i, op) ∈ add_searchable_text_layer doc ↔
      (pyStrip page.extract_text).length ≤ 50 ∧
        ∃ w ∈ page.ocr_words, pyStrip w.text ≠ [] ∧
          op = { x := w.left * searchScale,
                 y := w.top * searchScale +
                   max (w.height * searchScale * 0.85) 1 * 0.88,
                 text := pyStrip w.text,
                 fontsize := max (w.height * searchScale * 0.85) 1,
                 invisible := true }) := by
  refine ⟨fun h => ?_, fun h => ?_, ?_⟩
  · unfold page_layer_contribution
    rw [if_pos h]
  · unfold page_layer_contribution
    rw [if_neg (not_lt.mpr h)]
  · rw [mem_add_searchable doc i page op hget]
    exact and_congr_right fun _ => mem_page_search_ops

/-- Claim C8, witness: the 60-character page contributes no invisible text,
while the 5-character page contributes exactly its word stamps. -/
theorem c8_witness :
    page_layer_contribution 0 pageD = [] ∧
      page_layer_contribution 1 pageE =
        (page_search_ops pageE).map fun o => (1, o) :=
  ⟨(c8_searchable_layer [pageD, pageE] 0 pageD default rfl).1 (by decide),
    (c8_searchable_layer [pageD, pageE] 1 pageE default rfl).2.1 (by decide)⟩

/-- All words emitted by the split worker are non-empty and whitespace-free,
provided the pending accumulator contains no whitespace. -/
theorem splitWordsAux_goodWords :
    ∀ (s cur : List Char), (∀ c ∈ cur, ¬ c.isWhitespace) →
      ∀ w ∈ splitWordsAux cur s, goodWord w := by
  intro s
  induction s with
  | nil =>
      intro cur hcur w hw
      rw [splitWordsAux] at hw
      split_ifs at hw with hc
      · simp at hw
      · rw [List.mem_singleton] at hw
        subst hw
        refine ⟨by simpa using hc, ?_⟩
        intro c hc2
        exact hcur c (List.mem_reverse.mp hc2)
  | cons c cs ih =>
      intro cur hcur w hw
      rw [splitWordsAux] at hw
      split_ifs at hw with hws hc
      · exact ih [] (by simp) w hw
      · rcases List.mem_cons.mp hw with rfl | hw2
        · refine ⟨by simpa using hc, ?_⟩
          intro d hd
          exact hcur d (List.mem_reverse.mp hd)
        · exact ih [] (by simp) w hw2
      · refine ih (c :: cur) ?_ w hw
        intro d hd
        rcases List.mem_cons.mp hd with rfl | hd2
        · exact hws
        · exact hcur d hd2

/-- All words of Python `str.split()` are non-empty and whitespace-free. -/
theorem splitWords_goodWords (s : List Char) : ∀ w ∈ splitWords s, goodWord w :=
  splitWordsAux_goodWords s [] (by simp)

/-- Scanning a whitespace-free chunk just moves it into the accumulator. -/
theorem splitWordsAux_append_word :
    ∀ (w cur s : List Char), (∀ c ∈ w, ¬ c.isWhitespace) →
      splitWordsAux cur (w ++ s) = splitWordsAux (w.reverse ++ cur) s := by
  intro w
  induction w with
  | nil => intro cur s _; simp
  | cons c w' ih =>
      intro cur s hw
      rw [List.cons_append, splitWordsAux,
        if_neg (by simpa using hw c (List.mem_cons_self c w'))]
      rw [ih (c :: cur) s fun d hd => hw d (List.mem_cons_of_mem c hd)]
      simp

/-- `joinSpace` of well-formed words is empty only for the empty list. -/
theorem joinSpace_eq_nil_iff :
    ∀ (g : List (List Char)), (∀ w ∈ g, goodWord w) → (joinSpace g = [] ↔ g = []) := by
  intro g hg
  match g with
  | [] => simp [joinSpace]
  | [w] =>
      rw [joinSpace]
      have := (hg w (List.mem_singleton_self w)).1
      simp [this]
  | w :: w' :: g'' =>
      have hj : joinSpace (w :: w' :: g'') = w ++ ' ' :: joinSpace (w' :: g'') := rfl
      rw [hj]
      constructor
      · intro h
        exact absurd h (by simp [(hg w (List.mem_cons_self _ _)).1])
      · intro h; simp at h

/-- Splitting the space-join of well-formed words recovers the words. -/
theorem splitWords_joinSpace :
    ∀ (g : List (List Char)), (∀ w ∈ g, goodWord w) → splitWords (joinSpace g) = g := by
  intro g
  induction g with
  | nil => intro _; rfl
  | cons w g' ih =>
      intro hg
      have hw := hg w (List.mem_cons_self w g')
      match g' with
      | [] =>
          rw [joinSpace]
          unfold splitWords
          rw [show w = w ++ ([] : List Char) by simp,
            splitWordsAux_append_word w [] [] hw.2]
          rw [splitWordsAux]
          rw [if_neg (by simpa using hw.1)]
          simp
      | w' :: g'' =>
          have hj : joinSpace (w :: w' :: g'') = w ++ ' ' :: joinSpace (w' :: g'') := rfl
          rw [hj]
          unfold splitWords
          rw [splitWordsAux_append_word w [] (' ' :: joinSpace (w' :: g'')) hw.2]
          rw [splitWordsAux]
          rw [if_pos (by decide)]
          rw [if_neg (by simpa using hw.1)]
          have := ih fun x hx => hg x (List.mem_cons_of_mem w hx)
          unfold splitWords at this
          rw [List.append_nil, List.reverse_reverse, this]

/-- `joinSpace` over a snoc: append a separating space exactly when the
prefix group is non-empty. -/
theorem joinSpace_append_one :
    ∀ (g : List (List Char)) (w : List Char),
      joinSpace (g ++ [w]) =
        joinSpace g ++ (if g = [] then [] else [' ']) ++ w := by
  intro g
  induction g with
  | nil => intro w; simp [joinSpace]
  | cons x g' ih =>
      intro w
      match g' with
      | [] => simp [joinSpace]
      | y :: g'' =>
          have h1 : joinSpace ((x :: y :: g'') ++ [w]) =
              x ++ ' ' :: joinSpace ((y :: g'') ++ [w]) := rfl
          have h2 : joinSpace (x :: y :: g'') = x ++ ' ' :: joinSpace (y :: g'') := rfl
          rw [h1, ih w, h2]
          simp

/-- Splitting across a newline splits the word stream. -/
theorem splitWordsAux_append_newline (b : List Char) :
    ∀ (a cur : List Char),
      splitWordsAux cur (a ++ '\n' :: b) = splitWordsAux cur a ++ splitWordsAux [] b := by
  intro a
  induction a with
  | nil =>
      intro cur
      by_cases hc : cur = []
      · subst hc; rfl
      · have h1 : splitWordsAux cur ('\n' :: b) = cur.reverse :: splitWordsAux [] b := by
          rw [splitWordsAux, if_pos (show ('\n').isWhitespace = true by decide), if_neg hc]
        have h2 : splitWordsAux cur [] = [cur.reverse] := by
          rw [splitWordsAux, if_neg hc]
        rw [List.nil_append, h1, h2, List.cons_append, List.nil_append]
  | cons c cs ih =>
      intro cur
      by_cases hws : c.isWhitespace = true
      · by_cases hc : cur = []
        · subst hc
          have h1 : splitWordsAux [] ((c :: cs) ++ '\n' :: b) =
              splitWordsAux [] (cs ++ '\n' :: b) := by
            rw [List.cons_append, splitWordsAux, if_pos hws, if_pos rfl]
          have h2 : splitWordsAux [] (c :: cs) = splitWordsAux [] cs := by
            rw [splitWordsAux, if_pos hws, if_pos rfl]
          rw [h1, h2, ih []]
        · have h1 : splitWordsAux cur ((c :: cs) ++ '\n' :: b) =
              cur.reverse :: splitWordsAux [] (cs ++ '\n' :: b) := by
            rw [List.cons_append, splitWordsAux, if_pos hws, if_neg hc]
          have h2 : splitWordsAux cur (c :: cs) = cur.reverse :: splitWordsAux [] cs := by
            rw [splitWordsAux, if_pos hws, if_neg hc]
          rw [h1, h2, ih [], List.cons_append]
      · have h1 : splitWordsAux cur ((c :: cs) ++ '\n' :: b) =
            splitWordsAux (c :: cur) (cs ++ '\n' :: b) := by
          rw [List.cons_append, splitWordsAux, if_neg hws]
        have h2 : splitWordsAux cur (c :: cs) = splitWordsAux (c :: cur) cs := by
          rw [splitWordsAux, if_neg hws]
        rw [h1, h2, ih (c :: cur)]

/-- `str.split()` words of a text are the concatenation of the words of its
newline-separated pieces. -/
theorem splitWords_append_newline (a b : List Char) :
    splitWords (a ++ '\n' :: b) = splitWords a ++ splitWords b :=
  splitWordsAux_append_newline b a []

/-- The words of a text are exactly the words of its `split("\n")` pieces,
in order. -/
theorem splitWords_pySplit :
    ∀ (s cur : List Char),
      splitWords (cur.reverse ++ s) = (pySplitAux '\n' cur s).flatMap splitWords := by
  intro s
  induction s with
  | nil =>
      intro cur
      rw [pySplitAux]
      simp
  | cons c cs ih =>
      intro cur
      rw [pySplitAux]
      by_cases hc : c = '\n'
      · rw [if_pos hc, List.flatMap_cons, ← ih []]
        subst hc
        rw [splitWords_append_newline]
        simp [splitWords]
      · rw [if_neg hc, ← ih (c :: cur)]
        simp

/-- Characters surviving neither end of `strip()` being all-whitespace. -/
theorem pyStrip_eq_nil_all_ws (p : List Char) (h : pyStrip p = []) :
    ∀ c ∈ p, c.isWhitespace := by
  unfold pyStrip at h
  rw [List.reverse_eq_nil_iff, List.dropWhile_eq_nil_iff] at h
  intro c hc
  have hsplit := List.takeWhile_append_dropWhile Char.isWhitespace p
  rw [← hsplit] at hc
  rcases List.mem_append.mp hc with h1 | h2
  · exact List.mem_takeWhile_imp h1
  · exact h c (List.mem_reverse.mpr h2)

/-- A text whose characters are all whitespace has no words. -/
theorem splitWords_of_all_ws :
    ∀ (p : List Char), (∀ c ∈ p, c.isWhitespace) → splitWords p = [] := by
  intro p
  induction p with
  | nil => intro _; rfl
  | cons c cs ih =>
      intro h
      unfold splitWords
      rw [splitWordsAux, if_pos (h c (List.mem_cons_self c cs)), if_pos rfl]
      exact ih fun d hd => h d (List.mem_cons_of_mem c hd)

/-- Invariant of the wrap loop: every emitted line either measures within
`max_width` or is one of the words in `W`. -/
theorem wrapLoop_line_bound (f : TextMeasure) (fn : List Char) (fs mw : ℚ) :
    ∀ (ws : List (List Char)) (current : List Char) (W : List (List Char)),
      (current = [] ∨ f current fn fs ≤ mw ∨ current ∈ W) →
      (∀ w ∈ ws, w ∈ W) →
      ∀ l ∈ wrapLoop f fn fs mw current ws, f l fn fs ≤ mw ∨ l ∈ W := by
  intro ws
  induction ws with
  | nil =>
      intro current W hcur _ l hl
      rw [wrapLoop] at hl
      split_ifs at hl with hc
      · simp at hl
      · rw [List.mem_singleton] at hl
        subst hl
        rcases hcur with h | h | h
        · exact absurd h hc
        · exact Or.inl h
        · exact Or.inr h
  | cons word ws' ih =>
      intro current W hcur hws l hl
      rw [wrapLoop] at hl
      by_cases hfit :
          f (current ++ (if current = [] then [] else [' ']) ++ word) fn fs ≤ mw
      · rw [if_pos hfit] at hl
        exact ih _ W (Or.inr (Or.inl hfit))
          (fun w hw => hws w (List.mem_cons_of_mem _ hw)) l hl
      · rw [if_neg hfit] at hl
        rcases List.mem_append.mp hl with h1 | h2
        · by_cases hc : current = []
          · rw [if_pos hc] at h1; simp at h1
          · rw [if_neg hc] at h1
            rw [List.mem_singleton] at h1
            subst h1
            rcases hcur with h | h | h
            · exact absurd h hc
            · exact Or.inl h
            · exact Or.inr h
        · exact ih word W (Or.inr (Or.inr (hws word (List.mem_cons_self _ _))))
            (fun w hw => hws w (List.mem_cons_of_mem _ hw)) l h2

/-- The wrap loop loses no word: flattening the emitted lines back into
words recovers the pending group followed by the remaining words. -/
theorem wrapLoop_flatMap (f : TextMeasure) (fn : List Char) (fs mw : ℚ) :
    ∀ (ws g : List (List Char)),
      (∀ w ∈ ws, goodWord w) → (∀ w ∈ g, goodWord w) →
      (wrapLoop f fn fs mw (joinSpace g) ws).flatMap splitWords = g ++ ws := by
  intro ws
  induction ws with
  | nil =>
      intro g hws hg
      rw [wrapLoop]
      by_cases hgnil : g = []
      · subst hgnil
        simp [joinSpace]
      · have hjs : ¬ joinSpace g = [] := fun h => hgnil ((joinSpace_eq_nil_iff g hg).mp h)
        rw [if_neg hjs]
        simp [splitWords_joinSpace g hg]
  | cons word ws' ih =>
      intro g hws hg
      have hgw : goodWord word := hws word (List.mem_cons_self _ _)
      have hg' : ∀ w ∈ g ++ [word], goodWord w := by
        intro w hw
        rcases List.mem_append.mp hw with h | h
        · exact hg w h
        · rw [List.mem_singleton] at h; subst h; exact hgw
      have hite : (if joinSpace g = [] then ([] : List Char) else [' ']) =
          (if g = [] then [] else [' ']) := by
        by_cases hgnil : g = []
        · rw [if_pos hgnil, if_pos ((joinSpace_eq_nil_iff g hg).mpr hgnil)]
        · rw [if_neg hgnil, if_neg (fun h => hgnil ((joinSpace_eq_nil_iff g hg).mp h))]
      have htest : joinSpace g ++ (if joinSpace g = [] then ([] : List Char) else [' ']) ++ word =
          joinSpace (g ++ [word]) := by
        rw [joinSpace_append_one, hite]
      rw [wrapLoop]
      by_cases hfit :
          f (joinSpace g ++ (if joinSpace g = [] then [] else [' ']) ++ word) fn fs ≤ mw
      · rw [if_pos hfit, htest]
        rw [ih (g ++ [word]) (fun w hw => hws w (List.mem_cons_of_mem _ hw)) hg']
        simp
      · rw [if_neg hfit, List.flatMap_append]
        have hrec := ih [word] (fun w hw => hws w (List.mem_cons_of_mem _ hw))
          (by intro w hw; rw [List.mem_singleton] at hw; subst hw; exact hgw)
        rw [show joinSpace [word] = word from rfl] at hrec
        rw [hrec]
        by_cases hgnil : g = []
        · subst hgnil
          rw [if_pos ((joinSpace_eq_nil_iff [] (by simp)).mpr rfl)]
          simp
        · rw [if_neg (fun h => hgnil ((joinSpace_eq_nil_iff g hg).mp h))]
          have : ([joinSpace g] : List (List Char)).flatMap splitWords = g := by
            simp [splitWords_joinSpace g hg]
          rw [this]
          simp

/-- Claim C10: every non-empty line produced by the word-wrapper either
measures within the maximum width or is exactly one word of the input, and
no word of the input is lost: flattening the lines back into words yields
exactly the words of the input text. -/
theorem c10_wrap_text_sound (f : TextMeasure) (text : List Char) (mw : ℚ)
    (fn : List Char) (fs : ℚ) :
    (∀ l ∈ wrap_text f text mw fn fs, l ≠ [] →
      f l fn fs ≤ mw ∨ ∃ p ∈ pySplit '\n' text, l ∈ splitWords p) ∧
    (wrap_text f text mw fn fs).flatMap splitWords = splitWords text := by
  constructor
  · intro l hl hne
    unfold wrap_text at hl
    obtain ⟨p, hp, hlp⟩ := List.mem_flatMap.mp hl
    by_cases hblank : pyStrip p = []
    · rw [if_pos hblank] at hlp
      rw [List.mem_singleton] at hlp
      exact absurd hlp hne
    · rw [if_neg hblank] at hlp
      have := wrapLoop_line_bound f fn fs mw (splitWords p) [] (splitWords p)
        (Or.inl rfl) (fun w hw => hw) l hlp
      rcases this with h | h
      · exact Or.inl h
      · exact Or.inr ⟨p, hp, h⟩
  · unfold wrap_text
    rw [List.flatMap_assoc]
    have hcongr : ∀ p ∈ pySplit '\n' text,
        ((if pyStrip p = [] then [([] : List Char)]
          else wrapLoop f fn fs mw [] (splitWords p)).flatMap splitWords) =
          splitWords p := by
      intro p hp
      by_cases hblank : pyStrip p = []
      · rw [if_pos hblank]
        rw [splitWords_of_all_ws p (pyStrip_eq_nil_all_ws p hblank)]
        rfl
      · rw [if_neg hblank]
        have := wrapLoop_flatMap f fn fs mw (splitWords p) []
          (splitWords_goodWords p) (by simp)
        rw [show joinSpace [] = ([] : List Char) from rfl] at this
        rw [this, List.nil_append]
    rw [List.flatMap_congr hcongr]
    have := splitWords_pySplit text []
    rw [List.reverse_nil, List.nil_append] at this
    exact this.symm

/-- Claim C10, witness: wrapping `"hello world"` at width 5 under the
one-point-per-character measure: the line `"hello"` measures within the
width or is an input word, and flattening the wrapped lines recovers the
words of the input. -/
theorem c10_witness :
    (fLen "hello".data "helv".data 10 ≤ 5 ∨
      ∃ p ∈ pySplit '\n' "hello world".data, "hello".data ∈ splitWords p) ∧
      (wrap_text fLen "hello world".data 5 "helv".data 10).flatMap splitWords =
        splitWords "hello world".data :=
  ⟨(c10_wrap_text_sound fLen "hello world".data 5 "helv".data 10).1 "hello".data
      (by decide) (by decide),
    (c10_wrap_text_sound fLen "hello world".data 5 "helv".data 10).2⟩
